import Mathlib

/-!
Verification of the concurrent read-through lookup cache from the
golang-concurrency repository.  The repository contains three versions of the
same program: `src/main.go` (cache guarded by a plain `sync.Mutex`),
`src/unnamed/part_000` (cache guarded by a `sync.RWMutex`) and
`src/unnamed/part_001` (no lock at all).  All three share the global
`cache : map[int]Book`, the record store `books`, and the two operations
`queryCache` and `queryDatabase`.  `src/notes.md` documents the channel
semantics used by the producer/consumer examples.

The shallow embedding below models the Go map as an extensional function
`Int → Option Book`, the sequential meaning of each operation as a pure
function threading the cache state explicitly, the lock usage of each
version as an explicit event trace, the WaitGroup usage of `main` as a
transition system, and the channel as a buffer-plus-closed-flag state
machine.
-/

namespace GoConc

/-- Modelled from the spec: the `Book` record type is declared in a repository
file that is not under `src/` (only its users `queryCache`/`queryDatabase` and
the store `books` appear there).  The spec's data model gives its fields:
`{id: integer (unique key), title: string, author: string,
publishedYear: integer}`, and the Go zero value `Book{}` has all fields
zeroed. -/
structure Book where
  ID : Int
  Title : String
  Author : String
  PublishedYear : Int
deriving DecidableEq, Repr

instance : Inhabited Book := ⟨⟨0, "", "", 0⟩⟩

/-- The global `cache` map (`map[int]Book`), modelled extensionally: a key is
mapped to `some b` when present, `none` when absent.  Go's comma-ok map read
on an absent key yields the zero value and `false`. -/
abbrev Cache := Int → Option Book

/-- The empty map `map[int]Book{}` that initialises the global `cache`. -/
def emptyCache : Cache := fun _ => none

/-- Go map assignment `cache[id] = b`: inserts or overwrites the entry. -/
def cacheInsert (c : Cache) (id : Int) (b : Book) : Cache :=
  fun k => if k = id then some b else c k

namespace Main

/-- `queryCache` from `src/main.go` (lines 85-94): `b, ok := cache[id]`
under the mutex, returning the value (zero value on a miss) and the
presence flag.  The lock does not affect the sequential meaning; it is
modelled separately by `queryCacheLocks`. -/
def queryCache (c : Cache) (id : Int) : Book × Bool :=
  ((c id).getD default, (c id).isSome)

/-- `queryDatabase` from `src/main.go` (lines 96-108): scan `books` in order;
on the first `b` with `b.ID == id`, execute `cache[id] = b` and return
`(b, true)`; otherwise return `(Book{}, false)` with the cache untouched.
The result pairs the returned value with the cache after the call. -/
def queryDatabase (books : List Book) (c : Cache) (id : Int) :
    (Book × Bool) × Cache :=
  match books with
  | [] => ((default, false), c)
  | b :: rest =>
      if b.ID = id then ((b, true), cacheInsert c id b)
      else queryDatabase rest c id

end Main

namespace RW

/-- `queryCache` from `src/unnamed/part_000` (lines 85-94): identical map
read, guarded by `RLock`/`RUnlock` on a `sync.RWMutex`. -/
def queryCache (c : Cache) (id : Int) : Book × Bool :=
  ((c id).getD default, (c id).isSome)

/-- `queryDatabase` from `src/unnamed/part_000` (lines 96-108): identical
scan and insert, with the insert guarded by `Lock`/`Unlock`. -/
def queryDatabase (books : List Book) (c : Cache) (id : Int) :
    (Book × Bool) × Cache :=
  match books with
  | [] => ((default, false), c)
  | b :: rest =>
      if b.ID = id then ((b, true), cacheInsert c id b)
      else queryDatabase rest c id

end RW

namespace NoLock

/-- `queryCache` from `src/unnamed/part_001` (lines 63-66): the bare map
read `b, ok := cache[id]` with no lock. -/
def queryCache (c : Cache) (id : Int) : Book × Bool :=
  ((c id).getD default, (c id).isSome)

/-- `queryDatabase` from `src/unnamed/part_001` (lines 68-78): the same scan
and unguarded insert. -/
def queryDatabase (books : List Book) (c : Cache) (id : Int) :
    (Book × Bool) × Cache :=
  match books with
  | [] => ((default, false), c)
  | b :: rest =>
      if b.ID = id then ((b, true), cacheInsert c id b)
      else queryDatabase rest c id

end NoLock

/-- A record of the sample store used for concrete witnesses. -/
def bookOne : Book := ⟨1, "The Go Programming Language", "Donovan", 2015⟩

/-- A second record of the sample store. -/
def bookTwo : Book := ⟨2, "Concurrency in Go", "Cox-Buday", 2017⟩

/-- A sample record store for concrete witnesses, shaped like the spec's
concrete scenario (ids are distinct small integers). -/
def sampleBooks : List Book := [bookOne, bookTwo]

/-- Cache states reachable by the program: starting from the empty global
`cache`, applying any sequence of `queryCache` calls (which do not change
the state) and `queryDatabase` calls (which may insert). -/
inductive ReachableCache (books : List Book) : Cache → Prop where
  | init : ReachableCache books emptyCache
  | query (c : Cache) (id : Int) : ReachableCache books c →
      ReachableCache books (Main.queryDatabase books c id).2

/-- Lock acquisition modes of a Go mutex: `sync.RWMutex.RLock` acquires
shared access, `sync.Mutex.Lock` and `sync.RWMutex.Lock` acquire exclusive
access. -/
inductive LockMode where
  | shared
  | exclusive
deriving DecidableEq, Repr

/-- The synchronization-relevant events a call performs, in program order. -/
inductive LockEvent where
  | acquire (m : LockMode)
  | release (m : LockMode)
  | mapRead
  | mapInsert
  | sleep
deriving DecidableEq, Repr

/-- The multiset of lock modes held after an event executes. -/
def heldAfter (held : List LockMode) (e : LockEvent) : List LockMode :=
  match e with
  | .acquire m => m :: held
  | .release m => held.erase m
  | _ => held

/-- Each event of a trace paired with the lock modes held when it runs. -/
def eventsWithHeld (t : List LockEvent) : List (LockEvent × List LockMode) :=
  (t.foldl
    (fun (acc : List (LockEvent × List LockMode) × List LockMode) e =>
      ((e, acc.2) :: acc.1, heldAfter acc.2 e)) ([], [])).1

/-- A trace holds a lock only at the map access itself (and the paired
release): no lock is held across any other event such as the sleep. -/
def locksHeldOnlyAtMap (t : List LockEvent) : Bool :=
  (eventsWithHeld t).all fun p =>
    p.2.isEmpty || p.1 == LockEvent.mapRead || p.1 == LockEvent.mapInsert ||
      p.1 == LockEvent.release LockMode.shared ||
      p.1 == LockEvent.release LockMode.exclusive

/-- Every map read in the trace runs holding exactly the given mode. -/
def readsHold (t : List LockEvent) (m : LockMode) : Bool :=
  (eventsWithHeld t).all fun p =>
    !(p.1 == LockEvent.mapRead) || p.2 == [m]

/-- Every map insert in the trace runs holding exclusive access only. -/
def insertsHoldExclusive (t : List LockEvent) : Bool :=
  (eventsWithHeld t).all fun p =>
    !(p.1 == LockEvent.mapInsert) || p.2 == [LockMode.exclusive]

/-- The simulated-latency sleep runs with no lock held. -/
def sleepsHoldNothing (t : List LockEvent) : Bool :=
  (eventsWithHeld t).all fun p =>
    !(p.1 == LockEvent.sleep) || p.2.isEmpty

namespace Main

/-- Lock/event trace of `queryCache` in `src/main.go`: `m.Lock()`, the map
read, `m.Unlock()` — a plain `sync.Mutex`, so the acquisition is
exclusive. -/
def queryCacheLocks : List LockEvent :=
  [.acquire .exclusive, .mapRead, .release .exclusive]

/-- Lock/event trace of `queryDatabase` in `src/main.go`: the sleep runs
first with no lock; only on a hit are `m.Lock()`, the insert and
`m.Unlock()` executed. -/
def queryDatabaseLocks (hit : Bool) : List LockEvent :=
  .sleep :: (if hit then [.acquire .exclusive, .mapInsert, .release .exclusive]
             else [])

end Main

namespace RW

/-- Lock/event trace of `queryCache` in `src/unnamed/part_000`:
`m.RLock()`, the map read, `m.RUnlock()` — shared access on a
`sync.RWMutex`. -/
def queryCacheLocks : List LockEvent :=
  [.acquire .shared, .mapRead, .release .shared]

/-- Lock/event trace of `queryDatabase` in `src/unnamed/part_000`: sleep
unlocked, then on a hit `m.Lock()` (exclusive), the insert, `m.Unlock()`. -/
def queryDatabaseLocks (hit : Bool) : List LockEvent :=
  .sleep :: (if hit then [.acquire .exclusive, .mapInsert, .release .exclusive]
             else [])

end RW

/-- State of the supervisor loop in `main` (`src/main.go` lines 23-82):
`iters` loop iterations remain, the WaitGroup counter holds `counter`, and
`pending` spawned goroutines have not yet called `wg.Done()`. -/
structure WgSt where
  iters : Nat
  counter : Nat
  pending : Nat
deriving DecidableEq, Repr

/-- One step of the supervisor/tasks system: a loop iteration executes
`wg.Add(2)` and spawns its two goroutines (register strictly before spawn,
as in lines 41-57), or one outstanding goroutine finishes and calls
`wg.Done()`, decrementing the counter by exactly one. -/
inductive WgStep : WgSt → WgSt → Prop where
  | loopIter (s : WgSt) (h : 0 < s.iters) :
      WgStep s ⟨s.iters - 1, s.counter + 2, s.pending + 2⟩
  | signalDone (s : WgSt) (h : 0 < s.pending) :
      WgStep s ⟨s.iters, s.counter - 1, s.pending - 1⟩

/-- States reachable from the program's start: 10 iterations to run,
counter 0, no goroutines spawned. -/
inductive WgReach : WgSt → Prop where
  | init : WgReach ⟨10, 0, 0⟩
  | step {s s' : WgSt} : WgReach s → WgStep s s' → WgReach s'

/-- `wg.Wait()` (line 82) returns exactly when the counter is zero. -/
def waitCanReturn (s : WgSt) : Bool := s.counter == 0

/-- A Go channel as documented in `src/notes.md` (Closing channel, lines
651-706): an ordered buffer plus a closed flag. -/
structure GoChan (α : Type) where
  buffer : List α
  closed : Bool
deriving DecidableEq, Repr

/-- One receive (`msg, ok := <-ch`): a non-empty buffer yields the oldest
value with `ok = true` whether or not the channel is closed; an empty
closed channel yields the zero value with `ok = false` immediately; an
empty open channel blocks (`none`). -/
def receive {α : Type} [Inhabited α] (c : GoChan α) :
    Option ((α × Bool) × GoChan α) :=
  match c.buffer with
  | v :: rest => some ((v, true), ⟨rest, c.closed⟩)
  | [] => if c.closed then some ((default, false), c) else none

/-- The channel state after one receive (unchanged when the receive
blocks). -/
def afterReceive {α : Type} [Inhabited α] (c : GoChan α) : GoChan α :=
  match receive c with
  | some (_, c') => c'
  | none => c

/-- Joint state of the producer/consumer program of `src/notes.md` (range
over channel, lines 708-739): the producer still has `toSend` values to
send before executing `close(ch)` (`closed` flag), the channel holds
`buffer`, and the consumer's `for msg := range ch` loop has collected
`received` and sets `consTerminated` when the range loop exits. -/
structure PCSt (α : Type) where
  toSend : List α
  closed : Bool
  buffer : List α
  received : List α
  consTerminated : Bool
deriving DecidableEq, Repr

/-- Interleaved small steps of the producer, the channel and the consumer,
for a channel of capacity `cap`: a send enqueues when the buffer has room;
on an unbuffered channel a send hands the value directly to the waiting
receiver; the producer closes after its last send; the consumer dequeues
the oldest value while the loop runs, and the range loop exits exactly when
the channel is closed and drained. -/
inductive PCStep (cap : Nat) : PCSt α → PCSt α → Prop where
  | send (s : PCSt α) (v : α) (rest : List α)
      (h1 : s.toSend = v :: rest) (h2 : s.closed = false)
      (h3 : s.buffer.length < cap) :
      PCStep cap s { s with toSend := rest, buffer := s.buffer ++ [v] }
  | rendezvous (s : PCSt α) (v : α) (rest : List α)
      (hcap : cap = 0) (h1 : s.toSend = v :: rest) (h2 : s.closed = false)
      (h3 : s.consTerminated = false) :
      PCStep cap s { s with toSend := rest, received := s.received ++ [v] }
  | closeChan (s : PCSt α)
      (h1 : s.toSend = []) (h2 : s.closed = false) :
      PCStep cap s { s with closed := true }
  | recv (s : PCSt α) (v : α) (rest : List α)
      (h1 : s.consTerminated = false) (h2 : s.buffer = v :: rest) :
      PCStep cap s { s with buffer := rest, received := s.received ++ [v] }
  | recvClosed (s : PCSt α)
      (h1 : s.consTerminated = false) (h2 : s.buffer = [])
      (h3 : s.closed = true) :
      PCStep cap s { s with consTerminated := true }

/-- Initial state: the producer has all of `vs` to send, the channel is
open and empty, the consumer has received nothing. -/
def pcInit {α : Type} (vs : List α) : PCSt α := ⟨vs, false, [], [], false⟩

/-- Reachability along any interleaving of the producer and consumer. -/
inductive PCReach (cap : Nat) (s0 : PCSt α) : PCSt α → Prop where
  | refl : PCReach cap s0 s0
  | step {s s' : PCSt α} : PCReach cap s0 s → PCStep cap s s' →
      PCReach cap s0 s'

/-- System invariant: the received prefix, the buffered values and the
values still to send always concatenate to the original send list (FIFO,
nothing lost, nothing duplicated), the producer closes only after its last
send, the consumer's loop exits only on a closed drained channel, and the
buffer never exceeds the capacity. -/
def PCInv {α : Type} (vs : List α) (cap : Nat) (s : PCSt α) : Prop :=
  s.received ++ s.buffer ++ s.toSend = vs ∧
    (s.closed = true → s.toSend = []) ∧
    (s.consTerminated = true → s.buffer = [] ∧ s.closed = true) ∧
    s.buffer.length ≤ cap

/-- Strictly decreasing step measure: the producer/consumer system admits
no infinite run, every execution terminates. -/
def pcMeasure {α : Type} (s : PCSt α) : Nat :=
  2 * s.toSend.length + s.buffer.length +
    (if s.closed then 0 else 1) + (if s.consTerminated then 0 else 1)

/-- The send list of the notes' example: ten values in order. -/
def sampleSends : List Int := [0, 1, 2, 3, 4, 5, 6, 7, 8, 9]

/-- `queryDatabase` finds exactly the first store element whose `ID` matches,
and inserts it; on no match it returns the cache unchanged. -/
theorem queryDatabase_eq_find (books : List Book) (c : Cache) (id : Int) :
    Main.queryDatabase books c id =
      match books.find? (fun b => b.ID == id) with
      | some b => ((b, true), cacheInsert c id b)
      | none => ((default, false), c) := by
  induction books with
  | nil => rfl
  | cons b rest ih =>
      by_cases h : b.ID = id
      · simp [Main.queryDatabase, List.find?, h]
      · simp only [Main.queryDatabase, if_neg h, ih, List.find?]
        have : (b.ID == id) = false := by
          simpa using h
        rw [this]

/-- Keys found by `queryDatabase` satisfy the scan predicate. -/
theorem find_id_eq {books : List Book} {id : Int} {b : Book}
    (h : books.find? (fun x => x.ID == id) = some b) : b.ID = id := by
  have := List.find?_some h
  simpa using this

/-- C1: whenever `queryDatabase(k)` returns `(r, true)`, a `queryCache(k)`
call on the resulting cache state, with no intervening operations, returns
`(r, true)`: the backing lookup stores the found record in the cache before
returning. -/
theorem c1_lookup_then_cache_hit (books : List Book) (c : Cache) (k : Int)
    (r : Book) (c' : Cache)
    (h : Main.queryDatabase books c k = ((r, true), c')) :
    Main.queryCache c' k = (r, true) := by
  rw [queryDatabase_eq_find] at h
  cases hf : books.find? (fun b => b.ID == k) with
  | none =>
      rw [hf] at h
      simp at h
  | some b =>
      rw [hf] at h
      injection h with h1 h2
      injection h1 with hr _
      subst h2
      rw [← hr]
      simp [Main.queryCache, cacheInsert]

/-- C1 witness at a concrete store, cache and key. -/
theorem c1_lookup_then_cache_hit_witness :
    Main.queryCache (Main.queryDatabase sampleBooks emptyCache 1).2 1 =
      ((Main.queryDatabase sampleBooks emptyCache 1).1.1, true) :=
  c1_lookup_then_cache_hit sampleBooks emptyCache 1
    (Main.queryDatabase sampleBooks emptyCache 1).1.1
    (Main.queryDatabase sampleBooks emptyCache 1).2 rfl

/-- C2: at every reachable state, every entry present in the cache is
exactly the record the store scan yields for that key (so it belongs to
`books` and carries the matching `ID`). -/
theorem c2_cache_invariant (books : List Book) (c : Cache)
    (hr : ReachableCache books c) :
    ∀ k b, c k = some b →
      books.find? (fun x => x.ID == k) = some b ∧ b ∈ books ∧ b.ID = k := by
  have main : ∀ k b, c k = some b →
      books.find? (fun x => x.ID == k) = some b := by
    induction hr with
    | init => intro k b h; exact absurd h (by simp [emptyCache])
    | query c id _ ih =>
        intro k b h
        rw [queryDatabase_eq_find] at h
        cases hf : books.find? (fun x => x.ID == id) with
        | none => rw [hf] at h; exact ih k b h
        | some b' =>
            rw [hf] at h
            simp only [cacheInsert] at h
            by_cases hk : k = id
            · rw [if_pos hk] at h
              injection h with hb
              subst hb; subst hk
              exact hf
            · rw [if_neg hk] at h
              exact ih k b h
  intro k b h
  refine ⟨main k b h, List.mem_of_find?_eq_some (main k b h), find_id_eq (main k b h)⟩

/-- C2 witness: after the reachable state produced by one database lookup
of key 1, the entry stored under key 1 is exactly the store's record for
key 1. -/
theorem c2_cache_invariant_witness :
    sampleBooks.find? (fun x => x.ID == 1) = some bookOne ∧
      bookOne ∈ sampleBooks ∧ bookOne.ID = 1 :=
  c2_cache_invariant sampleBooks (Main.queryDatabase sampleBooks emptyCache 1).2
    (ReachableCache.query emptyCache 1 ReachableCache.init) 1 bookOne rfl

/-- C3: `queryCache` returns the cached record and `true` when the key is
present, and the zero-value `Book` and `false` when it is absent; it is a
total function, so absence is reported through the boolean, never as an
error. -/
theorem c3_queryCache_total (c : Cache) (k : Int) :
    (∀ b, c k = some b → Main.queryCache c k = (b, true)) ∧
      (c k = none → Main.queryCache c k = (default, false)) := by
  constructor
  · intro b h; simp [Main.queryCache, h]
  · intro h; simp [Main.queryCache, h]

/-- C3 witness: a hit on a cache holding key 1 and a miss on the empty
cache. -/
theorem c3_queryCache_total_witness :
    Main.queryCache (cacheInsert emptyCache 1 bookOne) 1 = (bookOne, true) ∧
      Main.queryCache emptyCache 2 = (default, false) :=
  ⟨(c3_queryCache_total (cacheInsert emptyCache 1 bookOne) 1).1 bookOne rfl,
   (c3_queryCache_total emptyCache 2).2 rfl⟩

/-- C4: when no record in the store matches the key, `queryDatabase`
returns `(Book{}, false)` and the cache is exactly the one passed in. -/
theorem c4_miss_untouched (books : List Book) (c : Cache) (k : Int)
    (h : ∀ b ∈ books, b.ID ≠ k) :
    Main.queryDatabase books c k = ((default, false), c) := by
  induction books with
  | nil => rfl
  | cons b rest ih =>
      have hb : b.ID ≠ k := h b (List.mem_cons_self b rest)
      simp only [Main.queryDatabase, if_neg hb]
      exact ih fun x hx => h x (List.mem_cons_of_mem b hx)

/-- C4 witness: key 99 is absent from the sample store, so the lookup
misses and the cache is untouched. -/
theorem c4_miss_untouched_witness :
    Main.queryDatabase sampleBooks emptyCache 99 = ((default, false), emptyCache) :=
  c4_miss_untouched sampleBooks emptyCache 99 (by decide)

/-- C9: equal-value cache writes are idempotent and order-independent:
repeating the insert performed by a successful `queryDatabase(k)` leaves
the cache state (and the returned value) unchanged, and the underlying map
write absorbs a duplicate of itself. -/
theorem c9_put_idempotent (books : List Book) (c : Cache) (k : Int) :
    Main.queryDatabase books (Main.queryDatabase books c k).2 k =
        ((Main.queryDatabase books c k).1, (Main.queryDatabase books c k).2) ∧
      ∀ b, cacheInsert (cacheInsert c k b) k b = cacheInsert c k b := by
  constructor
  · rw [queryDatabase_eq_find, queryDatabase_eq_find]
    cases hf : books.find? (fun b => b.ID == k) with
    | none => simp
    | some b =>
        simp only
        congr 1
        funext k'
        simp only [cacheInsert]
        by_cases hk : k' = k <;> simp [hk]
  · intro b
    funext k'
    simp only [cacheInsert]
    by_cases hk : k' = k <;> simp [hk]

/-- C5 counterexample: in `src/main.go` the cache read path acquires the
plain mutex, which is exclusive access — it performs no shared (read)
acquisition, so reads exclude one another rather than proceeding in
parallel. -/
theorem c5_counterexample :
    LockEvent.acquire LockMode.shared ∉ Main.queryCacheLocks ∧
      LockEvent.acquire LockMode.exclusive ∈ Main.queryCacheLocks := by
  decide

/-- C5 amended: in the RWMutex version (`src/unnamed/part_000`) the read
path runs the map lookup under shared access only and the write path runs
the map insert under exclusive access; in `src/main.go` both paths acquire
the same exclusive mutex, the read included.  In both versions the lock is
held only around the map access itself — never across the simulated-latency
sleep or any other step. -/
theorem c5_amended_lock_discipline :
    readsHold RW.queryCacheLocks LockMode.shared = true ∧
      locksHeldOnlyAtMap RW.queryCacheLocks = true ∧
      insertsHoldExclusive (RW.queryDatabaseLocks true) = true ∧
      sleepsHoldNothing (RW.queryDatabaseLocks true) = true ∧
      sleepsHoldNothing (RW.queryDatabaseLocks false) = true ∧
      locksHeldOnlyAtMap (RW.queryDatabaseLocks true) = true ∧
      locksHeldOnlyAtMap (RW.queryDatabaseLocks false) = true ∧
      readsHold Main.queryCacheLocks LockMode.exclusive = true ∧
      locksHeldOnlyAtMap Main.queryCacheLocks = true ∧
      insertsHoldExclusive (Main.queryDatabaseLocks true) = true ∧
      sleepsHoldNothing (Main.queryDatabaseLocks true) = true ∧
      sleepsHoldNothing (Main.queryDatabaseLocks false) = true ∧
      locksHeldOnlyAtMap (Main.queryDatabaseLocks true) = true ∧
      locksHeldOnlyAtMap (Main.queryDatabaseLocks false) = true := by
  decide

/-- In every reachable state the counter equals the number of outstanding
goroutines. -/
theorem wg_counter_eq_pending {s : WgSt} (h : WgReach s) :
    s.counter = s.pending := by
  induction h with
  | init => rfl
  | step _ hs ih => cases hs with
    | loopIter h =>
        show _ + 2 = _ + 2
        omega
    | signalDone h =>
        show _ - 1 = _ - 1
        omega

/-- Signalling every outstanding goroutine drains `pending` to zero. -/
theorem wg_drain : ∀ (p n c : Nat), WgReach ⟨n, c, p⟩ → WgReach ⟨n, c - p, 0⟩ := by
  intro p
  induction p with
  | zero => intro n c h; simpa using h
  | succ p ih =>
      intro n c h
      have h1 : WgReach ⟨n, c - 1, p⟩ :=
        h.step (WgStep.signalDone ⟨n, c, p + 1⟩ (Nat.succ_pos p))
      have h2 := ih n (c - 1) h1
      have : c - 1 - p = c - (p + 1) := by omega
      rwa [this] at h2

/-- Running each remaining iteration and both of its goroutines to
completion keeps the counter at zero. -/
theorem wg_run_all : ∀ n : Nat, WgReach ⟨n, 0, 0⟩ → WgReach ⟨0, 0, 0⟩ := by
  intro n
  induction n with
  | zero => exact fun h => h
  | succ n ih =>
      intro h
      have h1 : WgReach ⟨n, 2, 2⟩ := by
        have := h.step (WgStep.loopIter ⟨n + 1, 0, 0⟩ (Nat.succ_pos n))
        simpa using this
      have h2 : WgReach ⟨n, 1, 1⟩ :=
        h1.step (WgStep.signalDone ⟨n, 2, 2⟩ (Nat.succ_pos 1))
      have h3 : WgReach ⟨n, 0, 0⟩ :=
        h2.step (WgStep.signalDone ⟨n, 1, 1⟩ (Nat.succ_pos 0))
      exact ih h3

/-- C6: the coordinator supports the accumulate-then-wait-once pattern:
with `wg.Add(2)` executed strictly before each iteration's two goroutines
are spawned and each goroutine calling `wg.Done()` exactly once, every
reachable state keeps the counter equal to the number of unfinished
goroutines, so the single final `wg.Wait()` returns exactly when all
registered units have signalled, never while the counter is positive; the
fully drained state (all 10 iterations done, counter zero) is reachable
and lets the wait return. -/
theorem c6_coordinator (s : WgSt) (hr : WgReach s) :
    s.counter = s.pending ∧
      (waitCanReturn s = true ↔ s.pending = 0) ∧
      (0 < s.counter → waitCanReturn s = false) ∧
      WgReach ⟨0, 0, 0⟩ ∧ waitCanReturn ⟨0, 0, 0⟩ = true := by
  have hcp := wg_counter_eq_pending hr
  refine ⟨hcp, ?_, ?_, wg_run_all 10 WgReach.init, rfl⟩
  · simp [waitCanReturn, hcp]
  · intro h
    simp only [waitCanReturn, beq_eq_false_iff_ne, ne_eq]
    omega

/-- C6 witness: the theorem applied at the initial state gives the counter
invariant there and the reachability of the drained state. -/
theorem c6_coordinator_witness :
    (WgSt.mk 10 0 0).counter = (WgSt.mk 10 0 0).pending ∧
      (waitCanReturn ⟨10, 0, 0⟩ = true ↔ (WgSt.mk 10 0 0).pending = 0) ∧
      WgReach ⟨0, 0, 0⟩ ∧ waitCanReturn ⟨0, 0, 0⟩ = true :=
  ⟨(c6_coordinator ⟨10, 0, 0⟩ WgReach.init).1,
   (c6_coordinator ⟨10, 0, 0⟩ WgReach.init).2.1,
   (c6_coordinator ⟨10, 0, 0⟩ WgReach.init).2.2.2.1,
   (c6_coordinator ⟨10, 0, 0⟩ WgReach.init).2.2.2.2⟩

/-- C7: on a closed channel whose buffer is empty, every receive returns
`(zero value, false)` immediately — it never blocks and never yields any
other value — and the state is unchanged, so every subsequent receive
behaves identically. -/
theorem c7_closed_drained {α : Type} [Inhabited α] (c : GoChan α)
    (hb : c.buffer = []) (hc : c.closed = true) :
    receive c = some ((default, false), c) ∧
      ∀ n : Nat, afterReceive^[n] c = c := by
  have h1 : receive c = some ((default, false), c) := by
    unfold receive
    rw [hb, hc]
    simp
  refine ⟨h1, ?_⟩
  intro n
  have hfix : afterReceive c = c := by
    unfold afterReceive
    rw [h1]
  exact Function.iterate_fixed hfix n

/-- C7 witness: a concrete closed, drained channel of integers, receiving
three more times. -/
theorem c7_closed_drained_witness :
    receive (GoChan.mk ([] : List Int) true) =
        some ((default, false), GoChan.mk ([] : List Int) true) ∧
      afterReceive^[3] (GoChan.mk ([] : List Int) true) =
        GoChan.mk ([] : List Int) true :=
  ⟨(c7_closed_drained ⟨[], true⟩ rfl rfl).1,
   (c7_closed_drained ⟨[], true⟩ rfl rfl).2 3⟩

/-- One step preserves the invariant. -/
theorem pc_inv_step {α : Type} {vs : List α} {cap : Nat} {s s' : PCSt α}
    (hs : PCStep cap s s') (ih : PCInv vs cap s) : PCInv vs cap s' := by
  obtain ⟨i1, i2, i3, i4⟩ := ih
  cases hs with
  | send v rest h1 h2 h3 =>
      rw [h1] at i1
      refine ⟨?_, ?_, ?_, ?_⟩
      · show s.received ++ (s.buffer ++ [v]) ++ rest = vs
        rw [← i1]; simp
      · intro hc
        have hc' : s.closed = true := hc
        rw [h2] at hc'
        exact Bool.noConfusion hc'
      · intro ht
        have ht' : s.consTerminated = true := ht
        have := (i3 ht').2
        rw [h2] at this
        exact Bool.noConfusion this
      · show (s.buffer ++ [v]).length ≤ cap
        simp only [List.length_append, List.length_singleton]
        omega
  | rendezvous v rest hcap h1 h2 h3 =>
      have hbuf : s.buffer = [] := by
        subst hcap
        exact List.eq_nil_of_length_eq_zero (Nat.le_zero.mp i4)
      rw [h1, hbuf] at i1
      refine ⟨?_, ?_, ?_, ?_⟩
      · show (s.received ++ [v]) ++ s.buffer ++ rest = vs
        rw [hbuf, ← i1]; simp
      · intro hc
        have hc' : s.closed = true := hc
        rw [h2] at hc'
        exact Bool.noConfusion hc'
      · intro ht
        have ht' : s.consTerminated = true := ht
        rw [h3] at ht'
        exact Bool.noConfusion ht'
      · exact i4
  | closeChan h1 h2 =>
      exact ⟨i1, fun _ => h1, fun ht => ⟨(i3 ht).1, rfl⟩, i4⟩
  | recv v rest h1 h2 =>
      rw [h2] at i1 i4
      refine ⟨?_, i2, ?_, ?_⟩
      · show (s.received ++ [v]) ++ rest ++ s.toSend = vs
        rw [← i1]; simp
      · intro ht
        have ht' : s.consTerminated = true := ht
        rw [h1] at ht'
        exact Bool.noConfusion ht'
      · show rest.length ≤ cap
        simp only [List.length_cons] at i4
        omega
  | recvClosed h1 h2 h3 =>
      exact ⟨i1, i2, fun _ => ⟨h2, h3⟩, i4⟩

/-- The invariant holds in every reachable state. -/
theorem pc_inv {α : Type} {vs : List α} {cap : Nat} {s : PCSt α}
    (h : PCReach cap (pcInit vs) s) : PCInv vs cap s := by
  induction h with
  | refl =>
      refine ⟨by simp [pcInit], by simp [pcInit], by simp [pcInit],
        by simp [pcInit]⟩
  | step _ hs ih => exact pc_inv_step hs ih

/-- A reachable state with no enabled step is exactly the terminal one:
everything sent, channel closed, consumer loop exited, and the consumer
received the whole send list in order. -/
theorem pc_stuck {α : Type} {vs : List α} {cap : Nat} {s : PCSt α}
    (hr : PCReach cap (pcInit vs) s) (hstuck : ∀ s', ¬ PCStep cap s s') :
    s.toSend = [] ∧ s.closed = true ∧ s.consTerminated = true ∧
      s.received = vs := by
  obtain ⟨i1, i2, i3, i4⟩ := pc_inv hr
  have hts : s.toSend = [] := by
    cases hts : s.toSend with
    | nil => rfl
    | cons v rest =>
        exfalso
        have hcl : s.closed = false := by
          cases hcl : s.closed
          · rfl
          · have := i2 hcl
            rw [hts] at this
            exact List.noConfusion this
        cases cap with
        | zero =>
            have hct : s.consTerminated = false := by
              cases hct : s.consTerminated
              · rfl
              · have := (i3 hct).2
                rw [hcl] at this
                exact Bool.noConfusion this
            exact hstuck _ (PCStep.rendezvous s v rest rfl hts hcl hct)
        | succ c =>
            by_cases hlen : s.buffer.length < c + 1
            · exact hstuck _ (PCStep.send s v rest hts hcl hlen)
            · cases hb : s.buffer with
              | nil =>
                  rw [hb] at hlen
                  simp at hlen
              | cons b bs =>
                  have hct : s.consTerminated = false := by
                    cases hct : s.consTerminated
                    · rfl
                    · have := (i3 hct).1
                      rw [hb] at this
                      exact List.noConfusion this
                  exact hstuck _ (PCStep.recv s b bs hct hb)
  have hcl : s.closed = true := by
    cases hcl : s.closed
    · exact absurd (PCStep.closeChan s hts hcl) (hstuck _)
    · rfl
  have hct : s.consTerminated = true := by
    cases hct : s.consTerminated
    · exfalso
      cases hb : s.buffer with
      | nil => exact hstuck _ (PCStep.recvClosed s hct hb hcl)
      | cons b bs => exact hstuck _ (PCStep.recv s b bs hct hb)
    · rfl
  have hb : s.buffer = [] := (i3 hct).1
  refine ⟨hts, hcl, hct, ?_⟩
  rw [hts, hb] at i1
  simpa using i1

/-- Every step strictly decreases the measure. -/
theorem pc_measure_decreases {α : Type} {cap : Nat} {s s' : PCSt α}
    (h : PCStep cap s s') : pcMeasure s' < pcMeasure s := by
  cases h with
  | send v rest h1 h2 h3 =>
      cases hct : s.consTerminated <;>
        simp [pcMeasure, h1, h2, hct] <;> omega
  | rendezvous v rest hcap h1 h2 h3 =>
      simp [pcMeasure, h1, h2, h3]
  | closeChan h1 h2 =>
      cases hct : s.consTerminated <;>
        simp [pcMeasure, h1, h2, hct]
  | recv v rest h1 h2 =>
      cases hcl : s.closed <;>
        simp [pcMeasure, h1, h2, hcl]
  | recvClosed h1 h2 h3 =>
      simp [pcMeasure, h1, h2, h3]

/-- C8: with a producer sending exactly 10 values then closing the channel
and a consumer iterating with the range loop, every interleaving that can
make no further step has delivered exactly the 10 values to the consumer
in send order with the loop terminated on the closed drained channel (no
deadlocked stuck state exists), and every step strictly decreases a
natural-number measure, so no execution runs forever. -/
theorem c8_iteration_termination {α : Type} (vs : List α) (cap : Nat)
    (s : PCSt α) (_hlen : vs.length = 10)
    (hr : PCReach cap (pcInit vs) s) :
    ((∀ s', ¬ PCStep cap s s') →
        s.received = vs ∧ s.consTerminated = true ∧ s.closed = true ∧
          s.toSend = []) ∧
      ∀ s', PCStep cap s s' → pcMeasure s' < pcMeasure s := by
  refine ⟨fun hstuck => ?_, fun s' hs => pc_measure_decreases hs⟩
  obtain ⟨hts, hcl, hct, hrecv⟩ := pc_stuck hr hstuck
  exact ⟨hrecv, hct, hcl, hts⟩

/-- Alternating one send with one receive and finally closing runs the
system from any open quiescent state to the terminal state. -/
theorem pc_run_aux {α : Type} (cap : Nat) (hcap : 0 < cap) :
    ∀ (ts rcv : List α) (s0 : PCSt α),
      PCReach cap s0 ⟨ts, false, [], rcv, false⟩ →
      PCReach cap s0 ⟨[], true, [], rcv ++ ts, true⟩ := by
  intro ts
  induction ts with
  | nil =>
      intro rcv s0 h
      have h1 := h.step (PCStep.closeChan _ rfl rfl)
      have h2 := h1.step (PCStep.recvClosed _ rfl rfl rfl)
      simpa using h2
  | cons v rest ih =>
      intro rcv s0 h
      have h1 := h.step (PCStep.send _ v rest rfl rfl (by simpa using hcap))
      have h2 := h1.step (PCStep.recv _ v [] rfl rfl)
      have h3 := ih (rcv ++ [v]) s0 h2
      simpa using h3

/-- The terminal state, with the whole send list delivered, is reachable
on a capacity-1 channel. -/
theorem pc_complete {α : Type} (vs : List α) :
    PCReach 1 (pcInit vs) ⟨[], true, [], vs, true⟩ := by
  have := pc_run_aux 1 Nat.one_pos vs [] (pcInit vs) PCReach.refl
  simpa using this

/-- C8 witness: on a capacity-1 channel with the concrete ten-element send
list, the reachable stuck state has delivered exactly the ten values in
order to the consumer, with the channel closed and the loop exited. -/
theorem c8_iteration_termination_witness :
    (PCSt.mk ([] : List Int) true [] sampleSends true).received = sampleSends ∧
      (PCSt.mk ([] : List Int) true [] sampleSends true).consTerminated = true ∧
      (PCSt.mk ([] : List Int) true [] sampleSends true).closed = true ∧
      (PCSt.mk ([] : List Int) true [] sampleSends true).toSend = [] :=
  (c8_iteration_termination sampleSends 1 ⟨[], true, [], sampleSends, true⟩ rfl
      (pc_complete sampleSends)).1
    (by intro s' hs; cases hs <;> simp_all)

/-- C10: ignoring synchronization, the three versions compute the same
sequential function: the plain-Mutex `src/main.go`, the RWMutex
`src/unnamed/part_000` and the lock-free `src/unnamed/part_001` agree on
`queryCache` and on `queryDatabase` (same returned pair and same final
cache state) at every store, cache and id. -/
theorem c10_versions_equivalent (books : List Book) (c : Cache) (id : Int) :
    Main.queryCache c id = RW.queryCache c id ∧
      Main.queryCache c id = NoLock.queryCache c id ∧
      Main.queryDatabase books c id = RW.queryDatabase books c id ∧
      Main.queryDatabase books c id = NoLock.queryDatabase books c id := by
  refine ⟨rfl, rfl, ?_, ?_⟩ <;>
    · induction books with
      | nil => rfl
      | cons b rest ih =>
          by_cases h : b.ID = id <;>
            simp [Main.queryDatabase, RW.queryDatabase, NoLock.queryDatabase, h, ih]

end GoConc

